import Mathlib

/-!
Verification of the evogit core (git-native evolutionary algorithm engine).

This file shallowly embeds the data model and operations of the evogit
python implementation (api.py, utils/git.py, evox_extension.py and the
vector merge driver scripts) and proves or refutes the frozen claims
about them.  Strings are modelled as lists of characters where the code
does substring matching; external effects (git subprocesses, the LLM
backend, the global random number generator of the python runtime) are
modelled as explicit state passed through the functions.
-/

/-! ## Characters and substring search

The textual conflict resolver in utils/git.py is built on the regular
expression matching of the pattern
seven lt signs, lazy any, newline, group, seven eq signs, lazy any,
newline, group, seven gt signs, lazy any, newline
(DOTALL).  Because every quantifier of that pattern is lazy and every
later literal is searched in a suffix of the string, the backtracking
search of the python re engine never needs to revisit a choice: the
match anchored at the first occurrence of the opening marker, taking at
every step the first occurrence of the next literal, is the leftmost
match, and if that chain of first occurrences fails, no match exists at
all.  `splitFirst` is the first-occurrence splitter that the chain is
built from. -/

abbrev Chars := List Char

/-- Split a string at the first occurrence of `pat`:
returns the part before the occurrence and the part after it. -/
def splitFirst (pat : Chars) : Chars → Option (Chars × Chars)
  | [] => if pat = [] then some ([], []) else none
  | c :: cs =>
    if pat.isPrefixOf (c :: cs) then some ([], (c :: cs).drop pat.length)
    else
      match splitFirst pat cs with
      | some (a, b) => some (c :: a, b)
      | none => none

/-- Decidable substring test built on `splitFirst`. -/
def containsSub (pat s : Chars) : Bool := (splitFirst pat s).isSome

def newlineChar : Char := Char.ofNat 10

/-- The opening conflict marker, seven lt signs. -/
def markerOurs : Chars := List.replicate 7 (Char.ofNat 60)

/-- The separating conflict marker, seven eq signs. -/
def markerSep : Chars := List.replicate 7 (Char.ofNat 61)

/-- The closing conflict marker, seven gt signs. -/
def markerTheirs : Chars := List.replicate 7 (Char.ofNat 62)

/-- The part of one conflict-pattern match that follows the opening
marker: lazily skip to the first newline, capture up to the first
separating marker, lazily skip to the first newline, capture up to the
first closing marker, lazily skip to the first newline.  Returns the
two capture groups and the remainder of the string after the match. -/
def findConflictTail (r1 : Chars) : Option (Chars × Chars × Chars) :=
  match splitFirst [newlineChar] r1 with
  | none => none
  | some (_, r2) =>
    match splitFirst markerSep r2 with
    | none => none
    | some (g1, r3) =>
      match splitFirst [newlineChar] r3 with
      | none => none
      | some (_, r4) =>
        match splitFirst markerTheirs r4 with
        | none => none
        | some (g2, r5) =>
          match splitFirst [newlineChar] r5 with
          | none => none
          | some (_, rest) => some (g1, g2, rest)

/-- One match of `git_conflict_pattern` (utils/git.py lines 23-25) under
python re semantics: the prefix before the match, capture group 1 (the
ours side), capture group 2 (the theirs side) and the rest of the string
after the match.  Returns `none` when the pattern has no match. -/
def findConflict (s : Chars) : Option (Chars × Chars × Chars × Chars) :=
  match splitFirst markerOurs s with
  | none => none
  | some (pre, r1) =>
    match findConflictTail r1 with
    | none => none
    | some (g1, g2, rest) => some (pre, g1, g2, rest)

/-- The substitution loop of `git.handle_conflict` (utils/git.py lines
625-651): python re.sub replaces the non-overlapping matches from left
to right, drawing for each one the next element of the strategy
iterator (`True` keeps the ours side, `False` the theirs side).
`none` models the StopIteration exception raised when the strategy list
is shorter than the number of matches. -/
def subConflicts : Chars → List Bool → Option Chars
  | s, strategy =>
    match findConflict s, strategy with
    | none, _ => some s
    | some _, [] => none
    | some (pre, g1, g2, rest), b :: bs =>
      (subConflicts rest bs).map (fun tail => pre ++ (if b then g1 else g2) ++ tail)

/-- `git.handle_conflict` on the content of the conflicted file:
substitute every conflict block by the side chosen by the strategy. -/
def handle_conflict (content : Chars) (strategy : List Bool) : Option Chars :=
  subConflicts content strategy

/-- Fuel-bounded match counter used by `count_conflicts`; the fuel
`s.length` always suffices because every match consumes at least one
character (see `findConflict_rest_lt`). -/
def countAux : Nat → Chars → Nat
  | 0, _ => 0
  | fuel + 1, s =>
    match findConflict s with
    | none => 0
    | some (_, _, _, rest) => 1 + countAux fuel rest

/-- `git.count_conflicts` (utils/git.py lines 494-502): the number of
matches of the conflict pattern in the file content. -/
def count_conflicts (s : Chars) : Nat := countAux s.length s

/-! ### Structured conflict-marker input

The claim about `handle_conflict` quantifies over input texts in the
conflict-marker format: an interleaving of ordinary lines and conflict
blocks.  `ConflictItem` is that structure and `renderItems` flattens it
to the flat text the python code reads from the file. -/

/-- A newline-terminated line. -/
def renderLine (l : Chars) : Chars := l ++ [newlineChar]

/-- A block of newline-terminated lines. -/
def renderLines (ls : List Chars) : Chars := (ls.map renderLine).flatten

/-- One item of a text in the conflict-marker format: either an
ordinary line, or a conflict block (header tails are the texts that
follow the three markers on the marker lines, e.g. the space and branch
name after the closing marker). -/
inductive ConflictItem where
  | plainLine (l : Chars)
  | block (h1 : Chars) (ours : List Chars) (h2 : Chars) (theirs : List Chars) (h3 : Chars)

def renderItem : ConflictItem → Chars
  | .plainLine l => renderLine l
  | .block h1 ours h2 theirs h3 =>
    markerOurs ++ h1 ++ newlineChar :: (renderLines ours ++
      markerSep ++ h2 ++ newlineChar :: (renderLines theirs ++
        markerTheirs ++ h3 ++ [newlineChar]))

def renderItems (items : List ConflictItem) : Chars := (items.map renderItem).flatten

/-- An ordinary content line: no embedded newline and none of the three
conflict markers occurs in it. -/
def lineOk (l : Chars) : Bool :=
  !(l.contains newlineChar) && !(containsSub markerOurs l) &&
    !(containsSub markerSep l) && !(containsSub markerTheirs l)

/-- A marker-line header tail: no embedded newline. -/
def headerOk (h : Chars) : Bool := !(h.contains newlineChar)

def itemOk : ConflictItem → Bool
  | .plainLine l => lineOk l
  | .block h1 ours h2 theirs h3 =>
    headerOk h1 && headerOk h2 && headerOk h3 &&
      ours.all lineOk && theirs.all lineOk

def itemsOk (items : List ConflictItem) : Bool := items.all itemOk

/-- The number of conflict blocks of a structured text. -/
def countBlocks : List ConflictItem → Nat
  | [] => 0
  | .plainLine _ :: rest => countBlocks rest
  | .block _ _ _ _ _ :: rest => countBlocks rest + 1

/-- The lines of the resolved text: each block is replaced by its ours
lines or its theirs lines as chosen by the strategy list; `none` when
the strategy list runs out. -/
def resolvedLines : List ConflictItem → List Bool → Option (List Chars)
  | [], _ => some []
  | .plainLine l :: rest, st => (resolvedLines rest st).map (fun ls => l :: ls)
  | .block _ _ _ _ _ :: _, [] => none
  | .block _ ours _ theirs _ :: rest, b :: bs =>
    (resolvedLines rest bs).map (fun ls => (if b then ours else theirs) ++ ls)

/-! ## Fitness evaluation and the note cache

`api.evaluate_code` stores raw subprocess results as git notes keyed by
the commit id; the serialized note is the canonical json dump of the
result dictionary, and dumping after loading such a note reproduces it
byte for byte, so a note carrying a fitness record is modelled directly
by the parsed record. -/

/-- The result dictionary produced by `api.evaluate_code` (api.py lines
156-175), with fields stdout, stderr and timeout. -/
structure EvalResult where
  stdout : String
  stderr : String
  timeout : Bool
deriving DecidableEq

/-- The note store: git notes keyed by commit id.  Later entries shadow
earlier ones, modelling the overwriting git notes add with force. -/
abbrev NoteStore := List (String × EvalResult)

def lookupNote (store : NoteStore) (commit : String) : Option EvalResult :=
  match store with
  | [] => none
  | (c, r) :: rest => if c = commit then some r else lookupNote rest commit

/-- `git.add_note` with overwrite: the new entry shadows any older one. -/
def add_note (store : NoteStore) (commit : String) (r : EvalResult) : NoteStore :=
  (commit, r) :: store

/-- `api.evaluate_code` (api.py lines 122-178).  `run commit` is the
oracle for the subprocess result that an actual evaluation of the
commit would produce (including the timeout classification). -/
def evaluate_code (reevaluate : Bool) (store : NoteStore)
    (run : String → EvalResult) (commit : String) : EvalResult :=
  if reevaluate = false then
    match lookupNote store commit with
    | some r => r
    | none => run commit
  else run commit

/-- `api.update_notes` (api.py lines 205-210): write every result back
as a note with overwrite. -/
def update_notes (store : NoteStore) (commits : List String)
    (results : List EvalResult) : NoteStore :=
  (commits.zip results).foldl (fun st cr => add_note st cr.1 cr.2) store

/-- The batch evaluation of `evox_extension.evaluate` (lines 228-249):
deduplicate the population, evaluate every unique commit, write all
results back as notes.  Returns the updated store and the computed
per-unique-commit outputs. -/
def evaluate_batch (reevaluate : Bool) (store : NoteStore)
    (run : String → EvalResult) (pop : List String) :
    NoteStore × List (String × EvalResult) :=
  let uniquePop := pop.dedup
  let outputs := uniquePop.map (evaluate_code reevaluate store run)
  (update_notes store uniquePop outputs, uniquePop.zip outputs)

/-- The json object that `api.decode_result` reads from the stdout of an
evaluation: the status, fitness and time_cost fields, each possibly
absent (absent field access raises KeyError in python, which
decode_result catches). -/
structure ParsedStdout (F : Type) where
  status : Option String
  fitness : Option F
  time_cost : Option F

def finishedStatus : String := "finished"

def emptyStr : String := ""

def indexErrorStr : String := "IndexError"

def valueErrorStr : String := "ValueError"

/-- `api.decode_result` (api.py lines 181-202).  `parse` models
json.loads on the stdout text: `none` when the text is not a json
object (JSONDecodeError, or a TypeError on field access, both caught).
Every exceptional path of the source yields the illegal sentinel for
both components; no path raises. -/
def decode_result {F : Type} (parse : String → Option (ParsedStdout F))
    (output : EvalResult) (illegal : F) : F × F :=
  if output.timeout then (illegal, illegal)
  else
    match parse output.stdout with
    | none => (illegal, illegal)
    | some o =>
      match o.status with
      | none => (illegal, illegal)
      | some s =>
        if s = finishedStatus then
          match o.fitness, o.time_cost with
          | some f, some t => (f, t)
          | some _, none => (illegal, illegal)
          | none, _ => (illegal, illegal)
        else (illegal, illegal)

/-! ## The repository state and `git.update_file` -/

/-- A snapshot of the git repository as seen by `git.update_file`: the
current HEAD, the list of existing commit ids, and the content of each
file in each commit. -/
structure RepoState where
  head : String
  commits : List String
  content : String → String → String

/-- `git.checkout` (utils/git.py lines 519-528): detached checkout of a
commit moves HEAD to it. -/
def checkout (r : RepoState) (commit : String) : RepoState :=
  { r with head := commit }

/-- Characters that `git_commit_message_pattern` (utils/git.py line 28)
keeps in a commit message. -/
def allowedMsgChar (c : Char) : Bool :=
  c.isAlpha || c.isDigit || c = Char.ofNat 58 || c = Char.ofNat 95 ||
    c = Char.ofNat 45 || c = Char.ofNat 46 || c = Char.ofNat 47 ||
    c = Char.ofNat 92 || c = Char.ofNat 32

/-- Commit message sanitization of `git.update_file`: strip disallowed
characters, truncate to 256 characters. -/
def sanitizeMsg (msg : List Char) : List Char :=
  (msg.filter allowedMsgChar).take 256

/-- `git.update_file` (utils/git.py lines 421-458): checkout the commit;
if the file content is unchanged return without committing, otherwise
write, add and commit.  `freshId` is the oracle for the id of the newly
created commit. -/
def update_file (r : RepoState) (commit : String) (filename : String)
    (newContent : String) (msg : List Char) (freshId : String) : RepoState :=
  let r1 := checkout r commit
  if r1.content commit filename = newContent then r1
  else
    let _ := sanitizeMsg msg
    { head := freshId
      commits := freshId :: r1.commits
      content := fun c f =>
        if c = freshId then (if f = filename then newContent else r1.content commit f)
        else r1.content c f }

/-! ## The global random number generator

The python code draws from the process-global random module.  The
claims about stochastic operators are claims about how the operators
use that ambient state (whether they reseed it from their explicit seed
parameter or read whatever state was left behind), not about the
distribution of the Mersenne Twister, so the generator is modelled by a
concrete state-passing generator: any generator whose output depends on
its state witnesses the same dependencies. -/

/-- A state of the global random number generator. -/
abbrev Rng := Nat

/-- One step of the generator (a linear congruential update standing in
for the Mersenne Twister update of the python random module). -/
def rngStep (s : Rng) : Rng := (1103515245 * s + 12345) % 2147483648

/-- `random.seed(n)`: the state becomes a function of `n` alone. -/
def seedRng (n : Nat) : Rng := n % 2147483648

/-- A draw of a natural number below `n` (`n` positive). -/
def randBelow (s : Rng) (n : Nat) : Nat × Rng :=
  let s1 := rngStep s
  (s1 % n, s1)

/-- `random.randint(lo, hi)`: uniform on the closed interval. -/
def randIntRange (s : Rng) (lo hi : Nat) : Nat × Rng :=
  let s1 := rngStep s
  (lo + s1 % (hi + 1 - lo), s1)

/-- A draw of `random.choices([True, False], weights=...)[0]`. -/
def drawBool (s : Rng) : Bool × Rng :=
  let s1 := rngStep s
  (s1 % 2 = 0, s1)

/-- `k` successive boolean draws, as in
`random.choices([True, False], ..., k=count)`. -/
def drawBools (s : Rng) : Nat → List Bool × Rng
  | 0 => ([], s)
  | k + 1 =>
    let (b, s1) := drawBool s
    let (bs, s2) := drawBools s1 k
    (b :: bs, s2)

/-- `random.choice(l)` on a nonempty list of strings. -/
def randChoice (s : Rng) (l : List String) : String × Rng :=
  let (i, s1) := randBelow s l.length
  (l.getD i emptyStr, s1)

/-! ## Crossover: novelty guard and random choices -/

/-- `api.is_novel_merge` (api.py lines 213-218): a pair is novel when
neither commit can fast-forward to the other.  `anc c1 c2` is the
oracle for `git merge-base --is-ancestor c1 c2` (true also when the two
commits are equal). -/
def is_novel_merge (anc : String → String → Bool) (c1 c2 : String) : Bool :=
  !(anc c1 c2 || anc c2 c1)

/-- The pair-resampling while loop of `evox_extension.evogit_git_crossover`
(lines 64-73): while the pair is not novel and the retry budget — shared
across the whole generation loop — is not exhausted, draw a fresh index
pair.  `draws k` is the oracle for the k-th `torch.randint` index pair.
Returns the selected pair, the next draw counter and the retry counter. -/
def resamplePair (anc : String → String → Bool) (pop : List String)
    (draws : Nat → Nat × Nat) (maxRetry : Nat) :
    String × String → Nat → Nat → (String × String) × Nat × Nat
  | pair, k, retry =>
    if is_novel_merge anc pair.1 pair.2 = false ∧ retry < maxRetry then
      let ij := draws k
      resamplePair anc pop draws maxRetry
        (pop.getD ij.1 emptyStr, pop.getD ij.2 emptyStr) (k + 1) (retry + 1)
    else (pair, k, retry)
termination_by _ _ retry => maxRetry - retry
decreasing_by omega

/-- The population-level crossover loop of
`evox_extension.evogit_git_crossover` (lines 59-82), instrumented with
the value of the shared retry counter at each invocation: for each of
`n` offspring, draw an index pair, run the resampling loop, then invoke
`api.git_crossover` on the selected pair.  Returns the list of pairs on
which git_crossover is invoked, each with the retry counter at that
moment. -/
def crossoverTrace (anc : String → String → Bool) (pop : List String)
    (draws : Nat → Nat × Nat) (maxRetry : Nat) :
    Nat → Nat → Nat → List ((String × String) × Nat)
  | 0, _, _ => []
  | n + 1, k, retry =>
    let ij := draws k
    let r := resamplePair anc pop draws maxRetry
      (pop.getD ij.1 emptyStr, pop.getD ij.2 emptyStr) (k + 1) retry
    (r.1, r.2.2) :: crossoverTrace anc pop draws maxRetry n r.2.1 r.2.2

/-- The random choices made by `api.git_crossover` (api.py lines
221-232) and the conflict resolution it triggers (lines 235-269): the
function first reseeds the global generator with its explicit seed
parameter (discarding the ambient state `g`), then draws the
merge-versus-rebase coin, then draws one boolean strategy per conflict
of each conflicted file (`conflictCounts` is the oracle for the
conflict counts the repository produces).  Returns the coin, the drawn
strategies and the final generator state. -/
def git_crossover_choices (seed : Nat) (g : Rng) (conflictCounts : List Nat) :
    (Bool × List (List Bool)) × Rng :=
  let _ := g
  let g1 := seedRng seed
  let (useMerge, g2) := drawBool g1
  let (strats, g3) := conflictCounts.foldl
    (fun (acc : List (List Bool) × Rng) k =>
      let (bs, s1) := drawBools acc.2 k
      (acc.1 ++ [bs], s1))
    (([] : List (List Bool)), g2)
  ((useMerge, strats), g3)

/-! ## Constrained mutation: file and window selection -/

def textFileExtensions : List String :=
  ["js", "jsx", "ts", "tsx", "py", "html", "css", "scss", "md"]

def fileBlacklist : List String :=
  ["README.md", "LICENSE", "LICENSE.txt", "LICENSE.md", "CONTRIBUTING.md",
    "CONTRIBUTING.txt", "CONTRIBUTING", "package.json", "package-lock.json"]

def dotChar : Char := Char.ofNat 46

/-- Python str.split on a single separator character (used for the
extension test `file.split(".")[-1]`): accumulates the current
component and starts a new one at every separator. -/
def splitOnCharAux (c : Char) : Chars → Chars → List Chars
  | [], acc => [acc.reverse]
  | d :: ds, acc =>
    if d = c then acc.reverse :: splitOnCharAux c ds []
    else splitOnCharAux c ds (d :: acc)

def splitOnChar (c : Char) (s : Chars) : List Chars := splitOnCharAux c s []

/-- The last dot-separated component of a filename. -/
def fileExt (f : String) : Chars := (splitOnChar dotChar f.toList).getLastD []

/-- The eligible-file filter of `api._gather_info` (api.py lines
357-392): keep the files whose last dot-separated component is an
allowed text extension, then drop the blacklisted names. -/
def eligibleFiles (files : List String) : List String :=
  let files := files.filter (fun f => f ≠ emptyStr)
  let textFiles := files.filter
    (fun f => fileExt f ∈ textFileExtensions.map String.toList)
  textFiles.filter (fun f => f ∉ fileBlacklist)

/-- The file selection of `api._gather_info` for one individual:
`random.choice` on the eligible files raises IndexError when the list
is empty. -/
def gather_one (g : Rng) (files : List String) : Except String (String × Rng) :=
  match eligibleFiles files with
  | [] => .error indexErrorStr
  | f :: fs => .ok (randChoice g (f :: fs))

/-- The per-individual loop of `api._gather_info` (api.py lines
353-413), restricted to the file selection: an exception raised for one
individual propagates and aborts the processing of all later
individuals in the batch. -/
def gather_info (g : Rng) : List (List String) → Except String (List String × Rng)
  | [] => .ok ([], g)
  | files :: rest =>
    match gather_one g files with
    | .error e => .error e
    | .ok (f, g1) =>
      (gather_info g1 rest).map (fun p => (f :: p.1, p.2))

/-- The selection phase of `api.llm_constrained_mutation` (api.py lines
416-437): it receives the explicit per-individual seeds but passes them
only to the llm backend; the file selection draws from the ambient
global generator state `g`. -/
def constrained_mutation_selection (seeds : List Nat) (g : Rng)
    (filess : List (List String)) : Except String (List String × Rng) :=
  let _ := seeds
  gather_info g filess

/-- `api._generate_random_section` (api.py lines 343-350): a random
64-128 line window, clamped to the file length, at a random offset,
drawn from the ambient global generator state. -/
def generate_random_section (g : Rng) (nLines : Nat) : (Nat × Nat) × Rng :=
  let (len0, g1) := randIntRange g 64 128
  let len := if nLines < len0 then nLines else len0
  let (start, g2) := randIntRange g1 0 (nLines - len)
  ((start, start + len), g2)

/-! ## The numeric merge driver

`scripts/vector_merge_driver2.py` performs a three-way merge of numeric
vectors: per coordinate it first applies both parent deltas to the
ancestor, then overwrites every conflicting coordinate (both deltas
non-zero) with a convex combination of the two deltas.  The python
arrays of floats are modelled as lists of rationals, and the uniform
random factor of each conflicting coordinate is an explicit parameter. -/

/-- One coordinate of the merge of vector_merge_driver2 (lines 17-38):
deltas of both parents against the ancestor; a conflicting coordinate is
overwritten with `f * d1 + (1 - f) * d2` (note that the source assigns
this combination of the deltas directly, without adding the ancestor
back), a non-conflicting one keeps `ancestor + d1 + d2` where at least
one delta is zero. -/
def mergeCoord2 (a p1 p2 f : ℚ) : ℚ :=
  let d1 := p1 - a
  let d2 := p2 - a
  if d1 ≠ 0 ∧ d2 ≠ 0 then f * d1 + (1 - f) * d2 else a + d1 + d2

/-- The whole-vector merge of vector_merge_driver2, with one blending
factor per coordinate (factors of non-conflicting coordinates are
ignored). -/
def vector_merge_driver2 : List ℚ → List ℚ → List ℚ → List ℚ → List ℚ
  | a :: as2, p1 :: p1s, p2 :: p2s, f :: fs =>
    mergeCoord2 a p1 p2 f :: vector_merge_driver2 as2 p1s p2s fs
  | _, _, _, _ => []

/-- One coordinate of vector_merge_driver1 (lines 17-29): both deltas
are scaled by independent uniform factors and added to the ancestor. -/
def mergeCoord1 (a p1 p2 f1 f2 : ℚ) : ℚ :=
  a + f1 * (p1 - a) + f2 * (p2 - a)

/-! ## Migration -/

/-- The python substring operator on strings (`hostname not in branch`). -/
def strContains (hay needle : String) : Bool := containsSub needle.toList hay.toList

/-- The candidate loop of `api.migrate_from_other_hosts` (api.py lines
559-569): walk the (already shuffled) branches; a branch whose commit
has a note contributes the commit and its decoded fitness, a branch
without a note is skipped; stop as soon as the number of collected
commits equals `migrationCount`. -/
def migrateLoop {F : Type} (getCommit : String → String) (store : NoteStore)
    (dec : EvalResult → F × F) (migrationCount : Nat) :
    List String → List String → List (F × F) → List String × List (F × F)
  | [], commits, fitness => (commits, fitness)
  | b :: bs, commits, fitness =>
    match lookupNote store (getCommit b) with
    | some r =>
      let commits1 := commits ++ [getCommit b]
      let fitness1 := fitness ++ [dec r]
      if commits1.length = migrationCount then (commits1, fitness1)
      else migrateLoop getCommit store dec migrationCount bs commits1 fitness1
    | none =>
      if commits.length = migrationCount then (commits, fitness)
      else migrateLoop getCommit store dec migrationCount bs commits fitness

/-- `api.migrate_from_other_hosts` (api.py lines 548-572): filter out
the branches of the local host, then collect up to `migrationCount`
noted commits.  `branches` is the (already shuffled) remote branch
list; `store` is the note store after the remote note namespaces were
merged in; `parse` and `inf` are the json oracle and the illegal value
(numpy inf in the source) fed to decode_result.  The function reads
notes but never evaluates a genome: the returned fitness values are
decoded from stored notes only. -/
def migrate_from_other_hosts {F : Type} (hostname : String)
    (branches : List String) (getCommit : String → String) (store : NoteStore)
    (parse : String → Option (ParsedStdout F)) (inf : F)
    (migrationCount : Nat) : List String × List (F × F) :=
  let eligible := branches.filter (fun b => !(strContains b hostname))
  migrateLoop getCommit store (fun r => decode_result parse r inf)
    migrationCount eligible [] []

def humanTagStr : String := "human"

/-- `api.migrate_from_human_tags` (api.py lines 538-545): the commits of
at most `migrateCount` tags that start with the reserved human prefix
(the consumed tags are deleted in the source).  Returns a single list. -/
def migrate_from_human_tags (tags : List String) (getByTag : String → String)
    (migrateCount : Nat) : List String :=
  let human := tags.filter (fun t => t.startsWith humanTagStr)
  (human.take migrateCount).map getByTag

/-- Python tuple unpacking `x, y = l` of a list: raises ValueError
unless the list has exactly two elements. -/
def unpack2 {α : Type} : List α → Except String (α × α)
  | [a, b] => .ok (a, b)
  | _ => .error valueErrorStr

/-- `MigrateHelper.migrate_from_human` (evox_extension.py lines
313-323): on a triggering generation it unpacks the single list
returned by `migrate_from_human_tags(config, 1)` into the two variables
commit and fitness; on a non-triggering generation it returns the
no-migration result (modelled as `.ok none`). -/
def migrate_from_human (generation humanEvery : Nat) (tags : List String)
    (getByTag : String → String) : Except String (Option (String × String)) :=
  if generation % humanEvery = 0 then
    match unpack2 (migrate_from_human_tags tags getByTag 1) with
    | .error e => .error e
    | .ok (commit, fitness) => .ok (some (commit, fitness))
  else .ok none

/-! ## Theorems -/

/-! ### Claim C4 -/

/-- Claim C4: committing is idempotent on content.  For every repository
state, genome `commit`, path `filename` and content equal to the
genome's current content at that path, `git.update_file` leaves HEAD at
the genome itself and creates no new commit. -/
theorem update_file_idempotent (r : RepoState) (commit filename : String)
    (newContent : String) (msg : List Char) (freshId : String)
    (h : r.content commit filename = newContent) :
    (update_file r commit filename newContent msg freshId).head = commit ∧
      (update_file r commit filename newContent msg freshId).commits = r.commits := by
  unfold update_file checkout
  simp [h]

/-- Closed witness for `update_file_idempotent`. -/
theorem update_file_idempotent_witness :
    (update_file ⟨"h", ["c1"], fun _ _ => "x"⟩ "c1" "f" "x" [] "c2").head = "c1" ∧
      (update_file ⟨"h", ["c1"], fun _ _ => "x"⟩ "c1" "f" "x" [] "c2").commits = ["c1"] :=
  update_file_idempotent ⟨"h", ["c1"], fun _ _ => "x"⟩ "c1" "f" "x" [] "c2" rfl

/-! ### Claim C5 -/

/-- Claim C5: `api.decode_result` yields the pair (fitness, time_cost)
taken from the parsed stdout json exactly when the output did not time
out, the stdout parses as a json object, its status field is the
finished status and the fitness and time_cost fields are present; in
every other case it yields the illegal sentinel for both components.
The function is total (every exception of the source is caught and
mapped to the sentinel). -/
theorem decode_result_classification {F : Type}
    (parse : String → Option (ParsedStdout F)) (output : EvalResult) (illegal : F) :
    (∀ o f t, output.timeout = false → parse output.stdout = some o →
      o.status = some finishedStatus → o.fitness = some f → o.time_cost = some t →
      decode_result parse output illegal = (f, t)) ∧
    ((¬ ∃ o f t, output.timeout = false ∧ parse output.stdout = some o ∧
        o.status = some finishedStatus ∧ o.fitness = some f ∧ o.time_cost = some t) →
      decode_result parse output illegal = (illegal, illegal)) := by
  constructor
  · intro o f t ht hp hs hf htc
    simp [decode_result, ht, hp, hs, hf, htc]
  · intro hne
    by_cases ht : output.timeout
    · simp [decode_result, ht]
    · cases hp : parse output.stdout with
      | none => simp [decode_result, ht, hp]
      | some o =>
        cases hs : o.status with
        | none => simp [decode_result, ht, hp, hs]
        | some s =>
          by_cases hfin : s = finishedStatus
          · subst hfin
            cases hf : o.fitness with
            | none => simp [decode_result, ht, hp, hs, hf]
            | some f =>
              cases htc : o.time_cost with
              | none => simp [decode_result, ht, hp, hs, hf, htc]
              | some t =>
                exact absurd ⟨o, f, t, by simp [ht], hp, hs, hf, htc⟩ hne
          · simp [decode_result, ht, hp, hs, hfin]

/-- Closed witness for `decode_result_classification`. -/
theorem decode_result_classification_witness :
    decode_result (fun _ => some ⟨some finishedStatus, some (3 : ℚ), some 4⟩)
      ⟨"out", "err", false⟩ 0 = (3, 4) :=
  (decode_result_classification (fun _ => some ⟨some finishedStatus, some (3 : ℚ), some 4⟩)
    ⟨"out", "err", false⟩ 0).1 _ 3 4 rfl rfl rfl rfl rfl

/-! ### Claim C10 -/

/-- Claim C10: on every triggering generation (generation count
divisible by human_every), `MigrateHelper.migrate_from_human` unpacks
the single list returned by `migrate_from_human_tags(config, 1)` (a
list of at most one commit) into two variables, which raises ValueError
for every possible tag state, so the helper never returns its
documented result on a triggering generation. -/
theorem migrate_from_human_always_raises (generation humanEvery : Nat)
    (tags : List String) (getByTag : String → String)
    (h : generation % humanEvery = 0) :
    migrate_from_human generation humanEvery tags getByTag = .error valueErrorStr := by
  unfold migrate_from_human
  rw [if_pos h]
  have hlen : (migrate_from_human_tags tags getByTag 1).length ≤ 1 := by
    unfold migrate_from_human_tags
    simp [List.length_take]
  match hl : migrate_from_human_tags tags getByTag 1 with
  | [] => rfl
  | [a] => rfl
  | a :: b :: rest => rw [hl] at hlen; simp at hlen

/-- Closed witness for `migrate_from_human_always_raises`. -/
theorem migrate_from_human_always_raises_witness :
    migrate_from_human 4 2 ["human-correction"] id = .error valueErrorStr :=
  migrate_from_human_always_raises 4 2 ["human-correction"] id rfl

/-! ### Claim C3 -/

/-- Elements of a list zipped with its own image under `f` are pairs
related by `f`. -/
theorem snd_eq_of_mem_zip_map {A B : Type} (f : A → B) (l : List A) :
    ∀ p ∈ l.zip (l.map f), p.2 = f p.1 := by
  induction l with
  | nil => simp
  | cons a t ih =>
    intro p hp
    rw [List.map_cons, List.zip_cons_cons] at hp
    rcases List.mem_cons.mp hp with hp | hp
    · rw [hp]
    · exact ih p hp

/-- If every note written by a batch of note updates for a commit equals
the note already stored for it, the stored note is unchanged. -/
theorem lookup_update_notes_stable (l : List (String × EvalResult))
    (store : NoteStore) (commit : String) (r : EvalResult)
    (hst : lookupNote store commit = some r)
    (hl : ∀ p ∈ l, p.1 = commit → p.2 = r) :
    lookupNote (l.foldl (fun st cr => add_note st cr.1 cr.2) store) commit = some r := by
  induction l generalizing store with
  | nil => simpa using hst
  | cons p ps ih =>
    simp only [List.foldl_cons]
    apply ih
    · by_cases hp : p.1 = commit
      · simp [add_note, lookupNote, hp, hl p (by simp) hp]
      · simp [add_note, lookupNote, hp, hst]
    · intro q hq hqc
      exact hl q (by simp [hq]) hqc

/-- Claim C3: for every genome that already has a fitness-record note,
a non-forced evaluation returns the stored record
(`api.evaluate_code`), and a whole non-forced evaluation batch
(`evox_extension.evaluate`, which re-writes every computed output as a
note) leaves the stored note content unchanged. -/
theorem evaluate_batch_preserves_notes (store : NoteStore)
    (run : String → EvalResult) (pop : List String) (commit : String)
    (r : EvalResult) (h : lookupNote store commit = some r) :
    evaluate_code false store run commit = r ∧
      lookupNote (evaluate_batch false store run pop).1 commit = some r := by
  have heval : evaluate_code false store run commit = r := by
    simp [evaluate_code, h]
  refine ⟨heval, ?_⟩
  unfold evaluate_batch update_notes
  apply lookup_update_notes_stable _ _ _ _ h
  intro p hp hpc
  have := snd_eq_of_mem_zip_map (evaluate_code false store run) pop.dedup p hp
  rw [this, hpc, heval]

/-- Closed witness for `evaluate_batch_preserves_notes`. -/
theorem evaluate_batch_preserves_notes_witness :
    evaluate_code false [("c1", ⟨"so", "se", false⟩)] (fun _ => ⟨"", "", true⟩) "c1" =
        ⟨"so", "se", false⟩ ∧
      lookupNote
        (evaluate_batch false [("c1", ⟨"so", "se", false⟩)] (fun _ => ⟨"", "", true⟩)
          ["c1", "c2", "c1"]).1 "c1" = some ⟨"so", "se", false⟩ :=
  evaluate_batch_preserves_notes [("c1", ⟨"so", "se", false⟩)] (fun _ => ⟨"", "", true⟩)
    ["c1", "c2", "c1"] "c1" ⟨"so", "se", false⟩ rfl

/-! ### Claim C7 -/

/-- Counterexample to claim C7 as stated: with a migration limit of 0
the candidate loop of `api.migrate_from_other_hosts` checks the break
condition only after appending, so once a noted branch is found the
collected count has already passed the limit and the loop never breaks:
the function returns one genome, more than the limit. -/
theorem migrate_from_other_hosts_limit_counterexample :
    ¬ ((migrate_from_other_hosts ("h0") [("b1")] (fun b => b)
        [(("b1"), ⟨("o"), ("e"), true⟩)]
        (fun _ => (none : Option (ParsedStdout ℚ))) (0 : ℚ) 0).1.length ≤ 0) := by
  decide

/-- The invariant of the candidate loop of
`api.migrate_from_other_hosts`: starting strictly below a positive
limit with accumulators whose fitness entries each decode a stored
note, the loop returns at most `count` commits and every returned
commit has a stored note whose decode is its fitness entry. -/
theorem migrateLoop_spec {F : Type} (getCommit : String → String)
    (store : NoteStore) (dec : EvalResult → F × F) (count : Nat)
    (bs : List String) :
    ∀ (commits : List String) (fitness : List (F × F)),
      commits.length < count →
      List.Forall₂ (fun c p => ∃ r, lookupNote store c = some r ∧ p = dec r)
        commits fitness →
      (migrateLoop getCommit store dec count bs commits fitness).1.length ≤ count ∧
        List.Forall₂ (fun c p => ∃ r, lookupNote store c = some r ∧ p = dec r)
          (migrateLoop getCommit store dec count bs commits fitness).1
          (migrateLoop getCommit store dec count bs commits fitness).2 := by
  induction bs with
  | nil =>
    intro commits fitness hlen hf
    exact ⟨Nat.le_of_lt hlen, hf⟩
  | cons b bs ih =>
    intro commits fitness hlen hf
    cases hnote : lookupNote store (getCommit b) with
    | some r =>
      have happ : List.Forall₂ (fun c p => ∃ r, lookupNote store c = some r ∧ p = dec r)
          (commits ++ [getCommit b]) (fitness ++ [dec r]) :=
        List.rel_append hf
          (List.forall₂_cons.mpr ⟨⟨r, hnote, rfl⟩, List.Forall₂.nil⟩)
      simp only [migrateLoop, hnote]
      by_cases hstop : (commits ++ [getCommit b]).length = count
      · rw [if_pos hstop]
        exact ⟨Nat.le_of_eq hstop, happ⟩
      · rw [if_neg hstop]
        apply ih
        · simp only [List.length_append, List.length_cons, List.length_nil] at hstop ⊢
          omega
        · exact happ
    | none =>
      simp only [migrateLoop, hnote]
      rw [if_neg (by omega)]
      exact ih commits fitness hlen hf

/-- Claim C7 amended: for every positive migration limit,
`api.migrate_from_other_hosts` returns at most `limit` genomes, every
returned genome has a pre-existing fitness-record note, and each
returned fitness is the decode of that stored note — the function never
evaluates a genome (with limit 0 the break condition is missed and
every noted foreign branch is returned, see the counterexample). -/
theorem migrate_from_other_hosts_spec {F : Type} (hostname : String)
    (branches : List String) (getCommit : String → String) (store : NoteStore)
    (parse : String → Option (ParsedStdout F)) (inf : F) (count : Nat)
    (hcount : 1 ≤ count) :
    (migrate_from_other_hosts hostname branches getCommit store parse inf count).1.length ≤ count ∧
      List.Forall₂
        (fun c p => ∃ r, lookupNote store c = some r ∧ p = decode_result parse r inf)
        (migrate_from_other_hosts hostname branches getCommit store parse inf count).1
        (migrate_from_other_hosts hostname branches getCommit store parse inf count).2 := by
  unfold migrate_from_other_hosts
  exact migrateLoop_spec _ _ _ _ _ [] [] (by simpa using hcount) List.Forall₂.nil

/-- Closed witness for `migrate_from_other_hosts_spec`. -/
theorem migrate_from_other_hosts_spec_witness :
    (migrate_from_other_hosts ("h0") [("b1"), ("b2")] (fun b => b)
        [(("b1"), ⟨("o"), ("e"), true⟩)]
        (fun _ => (none : Option (ParsedStdout ℚ))) (0 : ℚ) 1).1.length ≤ 1 :=
  (migrate_from_other_hosts_spec ("h0") [("b1"), ("b2")] (fun b => b)
    [(("b1"), ⟨("o"), ("e"), true⟩)]
    (fun _ => (none : Option (ParsedStdout ℚ))) (0 : ℚ) 1 (by omega)).1

/-! ### Claim C8 -/

/-- Claim C8 evidence (code bug): in the constrained-mutation batch, a
genome whose file tree has no eligible text file (here a tree holding
only README.md, which has a text extension but is blacklisted) makes
`random.choice` raise IndexError inside `api._gather_info`; the loop
has no per-individual exception handling, so the whole batch aborts and
the remaining individuals are never processed — although the same
remaining individual succeeds when processed alone. -/
theorem single_failure_aborts_batch :
    eligibleFiles [("README.md")] = [] ∧
      gather_info 0 [[("README.md")], [("main.py")]] = .error indexErrorStr ∧
      gather_info 0 [[("main.py")]] = .ok ([("main.py")], 12345) :=
  ⟨rfl, rfl, rfl⟩

/-! ### Claim C9 -/

/-- Counterexample to claim C9 as stated: the file selection of the
constrained mutation operator (`api._gather_info`) draws from the
ambient global generator without seeding it — the explicit seed
parameters of `api.llm_constrained_mutation` are passed only to the llm
backend — so two runs on equal inputs with equal seed lists make
different random choices under different prior global states. -/
theorem constrained_mutation_seed_counterexample :
    ¬ (constrained_mutation_selection [7] 0 [[("a.py"), ("b.py")]] =
        constrained_mutation_selection [7] 1 [[("a.py"), ("b.py")]]) := by
  have h0 : constrained_mutation_selection [7] 0 [[("a.py"), ("b.py")]] =
      .ok ([("b.py")], 12345) := rfl
  have h1 : constrained_mutation_selection [7] 1 [[("a.py"), ("b.py")]] =
      .ok ([("a.py")], 1103527590) := rfl
  rw [h0, h1]
  simp

/-- Claim C9 amended: `api.git_crossover` reseeds the global generator
from its explicit seed parameter before drawing the merge-versus-rebase
coin and the conflict strategies, so all of its random choices are a
function of the seed alone, identical under any two prior global
states; the constrained mutation operator however selects its file from
the ambient global state without seeding, so on some equal inputs with
equal seed lists two prior states yield different selections (its
explicit seeds only reach the llm backend). -/
theorem stochastic_operator_seed_dependence (seed : Nat) (conflictCounts : List Nat) :
    (∀ g g' : Rng, git_crossover_choices seed g conflictCounts =
        git_crossover_choices seed g' conflictCounts) ∧
      (∃ (seeds : List Nat) (g g' : Rng) (filess : List (List String)),
        ¬ (constrained_mutation_selection seeds g filess =
            constrained_mutation_selection seeds g' filess)) := by
  constructor
  · intro g g'
    rfl
  · refine ⟨[7], 0, 1, [[("a.py"), ("b.py")]], ?_⟩
    have h0 : constrained_mutation_selection [7] 0 [[("a.py"), ("b.py")]] =
        .ok ([("b.py")], 12345) := rfl
    have h1 : constrained_mutation_selection [7] 1 [[("a.py"), ("b.py")]] =
        .ok ([("a.py")], 1103527590) := rfl
    rw [h0, h1]
    simp

/-! ### Claim C2 -/

/-- Counterexample to claim C2 as stated: at a conflicting coordinate
with ancestor 10, parents 11 and 12 (deltas 1 and 2) and blending
factor one half, vector_merge_driver2 overwrites the coordinate with
the convex combination of the deltas alone — the ancestor is not added
back — giving 3/2, which is outside the closed interval from
ancestor + d1 = 11 to ancestor + d2 = 12. -/
theorem vector_merge_interval_counterexample :
    ((11 : ℚ) - 10 ≠ 0 ∧ (12 : ℚ) - 10 ≠ 0) ∧
      vector_merge_driver2 [10] [11] [12] [1 / 2] = [3 / 2] ∧
      ¬ (min ((10 : ℚ) + (11 - 10)) (10 + (12 - 10)) ≤ 3 / 2 ∧
          (3 / 2 : ℚ) ≤ max ((10 : ℚ) + (11 - 10)) (10 + (12 - 10))) := by
  refine ⟨by norm_num, ?_, by norm_num⟩
  norm_num [vector_merge_driver2, mergeCoord2]

/-- Claim C2 amended: for every blending factor in the closed unit
interval, a conflicting coordinate (both deltas non-zero) is resolved
to a value in the closed interval whose endpoints are the two deltas d1
and d2 themselves (the source drops the ancestor term there), and every
non-conflicting coordinate equals the ancestor plus the single
remaining delta. -/
theorem mergeCoord2_spec (a p1 p2 f : ℚ) (hf0 : 0 ≤ f) (hf1 : f ≤ 1) :
    (p1 - a ≠ 0 → p2 - a ≠ 0 →
      min (p1 - a) (p2 - a) ≤ mergeCoord2 a p1 p2 f ∧
        mergeCoord2 a p1 p2 f ≤ max (p1 - a) (p2 - a)) ∧
      (p2 - a = 0 → mergeCoord2 a p1 p2 f = a + (p1 - a)) ∧
      (p1 - a = 0 → mergeCoord2 a p1 p2 f = a + (p2 - a)) := by
  refine ⟨?_, ?_, ?_⟩
  · intro h1 h2
    have hco : mergeCoord2 a p1 p2 f = f * (p1 - a) + (1 - f) * (p2 - a) := by
      simp only [mergeCoord2]
      rw [if_pos ⟨h1, h2⟩]
    rw [hco]
    constructor
    · rcases le_total (p1 - a) (p2 - a) with hle | hle
      · rw [min_eq_left hle]
        nlinarith
      · rw [min_eq_right hle]
        nlinarith
    · rcases le_total (p1 - a) (p2 - a) with hle | hle
      · rw [max_eq_right hle]
        nlinarith
      · rw [max_eq_left hle]
        nlinarith
  · intro h2
    have hco : mergeCoord2 a p1 p2 f = a + (p1 - a) + (p2 - a) := by
      simp only [mergeCoord2]
      rw [if_neg (by tauto)]
    rw [hco, h2, add_zero]
  · intro h1
    have hco : mergeCoord2 a p1 p2 f = a + (p1 - a) + (p2 - a) := by
      simp only [mergeCoord2]
      rw [if_neg (by tauto)]
    rw [hco, h1]
    ring

/-- Closed witness for `mergeCoord2_spec`. -/
theorem mergeCoord2_spec_witness :
    min ((11 : ℚ) - 10) (12 - 10) ≤ mergeCoord2 10 11 12 (1 / 2) ∧
      mergeCoord2 10 11 12 (1 / 2) ≤ max ((11 : ℚ) - 10) (12 - 10) :=
  (mergeCoord2_spec 10 11 12 (1 / 2) (by norm_num) (by norm_num)).1
    (by norm_num) (by norm_num)

/-! ### Claim C1 -/

/-- Counterexample to claim C1 as stated: with a population of one
commit (every commit is an ancestor of itself, so the pair is never
novel) and an exhausted retry budget of 0, the crossover loop invokes
git_crossover on the non-novel pair anyway. -/
theorem crossover_novelty_counterexample :
    crossoverTrace (fun _ _ => true) [("a")] (fun _ => (0, 0)) 0 1 0 0 =
        [((("a"), ("a")), 0)] ∧
      is_novel_merge (fun _ _ => true) ("a") ("a") = false := by
  constructor
  · simp [crossoverTrace, resamplePair, is_novel_merge]
  · rfl

/-- On exit of the resampling loop the selected pair is novel or the
shared retry counter has reached the retry budget. -/
theorem resamplePair_exit (anc : String → String → Bool) (pop : List String)
    (draws : Nat → Nat × Nat) (maxRetry : Nat) :
    ∀ (d : Nat) (pair : String × String) (k retry : Nat), maxRetry - retry ≤ d →
      is_novel_merge anc (resamplePair anc pop draws maxRetry pair k retry).1.1
          (resamplePair anc pop draws maxRetry pair k retry).1.2 = true ∨
        maxRetry ≤ (resamplePair anc pop draws maxRetry pair k retry).2.2 := by
  intro d
  induction d with
  | zero =>
    intro pair k retry hd
    rw [resamplePair, if_neg (by omega)]
    dsimp only
    rcases hb : is_novel_merge anc pair.1 pair.2 with _ | _
    · right
      omega
    · left
      rfl
  | succ d ih =>
    intro pair k retry hd
    by_cases h : is_novel_merge anc pair.1 pair.2 = false ∧ retry < maxRetry
    · rw [resamplePair, if_pos h]
      exact ih _ _ _ (by omega)
    · rw [resamplePair, if_neg h]
      dsimp only
      rcases hb : is_novel_merge anc pair.1 pair.2 with _ | _
      · right
        rcases not_and_or.mp h with h1 | h2
        · exact absurd hb h1
        · omega
      · left
        rfl

/-- Claim C1 amended: every pair on which the population-level
crossover loop invokes git_crossover is novel (neither parent an
ancestor of the other, checked in both directions) unless the shared
retry budget max_merge_retry has been exhausted at that point, in which
case the loop gives up resampling and crosses a possibly non-novel
pair. -/
theorem crossoverTrace_novel_unless_exhausted (anc : String → String → Bool)
    (pop : List String) (draws : Nat → Nat × Nat) (maxRetry : Nat) :
    ∀ (n k retry : Nat),
      ∀ pr ∈ crossoverTrace anc pop draws maxRetry n k retry,
        is_novel_merge anc pr.1.1 pr.1.2 = true ∨ maxRetry ≤ pr.2 := by
  intro n
  induction n with
  | zero =>
    intro k retry pr hpr
    simp [crossoverTrace] at hpr
  | succ n ih =>
    intro k retry pr hpr
    simp only [crossoverTrace] at hpr
    rcases List.mem_cons.mp hpr with h | h
    · subst h
      exact resamplePair_exit anc pop draws maxRetry (maxRetry - retry) _ _ _ le_rfl
    · exact ih _ _ pr h

/-- Closed witness for `crossoverTrace_novel_unless_exhausted`. -/
theorem crossoverTrace_novel_unless_exhausted_witness :
    is_novel_merge (fun _ _ => false) ("a") ("a") = true ∨ (1 : Nat) ≤ 0 := by
  apply crossoverTrace_novel_unless_exhausted (fun _ _ => false) [("a")]
    (fun _ => (0, 0)) 1 1 0 0 ((("a"), ("a")), 0)
  have h : crossoverTrace (fun _ _ => false) [("a")] (fun _ => (0, 0)) 1 1 0 0 =
      [((("a"), ("a")), 0)] := by
    simp [crossoverTrace, resamplePair, is_novel_merge]
  rw [h]
  exact List.mem_singleton.mpr rfl

/-! ### Claim C6: substring-search lemmas -/

/-- A nonempty pattern is not found in the empty string. -/
theorem splitFirst_nil (pat : Chars) (h : pat ≠ []) : splitFirst pat [] = none := by
  simp [splitFirst, h]

/-- When the pattern starts the string, the first occurrence is at the
front. -/
theorem splitFirst_at_front (pat s : Chars) (hpat : pat ≠ [])
    (hpre : pat.isPrefixOf s = true) : splitFirst pat s = some ([], s.drop pat.length) := by
  cases s with
  | nil =>
    rcases List.isPrefixOf_iff_prefix.mp hpre with h
    rcases pat with _ | ⟨c, cs⟩
    · exact absurd rfl hpat
    · simp at h
  | cons c cs =>
    rw [splitFirst, if_pos hpre]

/-- The first occurrence of the pattern in `pat ++ z` is at the front. -/
theorem splitFirst_append_self (pat z : Chars) (hpat : pat ≠ []) :
    splitFirst pat (pat ++ z) = some ([], z) := by
  rw [splitFirst_at_front pat (pat ++ z) hpat
    (List.isPrefixOf_iff_prefix.mpr (List.prefix_append pat z))]
  rw [List.drop_left]

/-- A newline-free pattern that prefixes `l2 ++ newline :: z` already
prefixes `l2`. -/
theorem prefix_of_prefix_append_nl (pat : Chars) (hnl : newlineChar ∉ pat) :
    ∀ (l2 z : Chars), pat <+: l2 ++ newlineChar :: z → pat <+: l2 := by
  intro l2
  induction l2 generalizing pat with
  | nil =>
    intro z h
    rcases pat with _ | ⟨c, cs⟩
    · exact List.nil_prefix
    · rw [List.nil_append] at h
      rcases List.cons_prefix_cons.mp h with ⟨hc, _⟩
      exact absurd (hc ▸ List.mem_cons_self c cs) hnl
  | cons d ds ih =>
    intro z h
    rcases pat with _ | ⟨c, cs⟩
    · exact List.nil_prefix
    · rw [List.cons_append] at h
      rcases List.cons_prefix_cons.mp h with ⟨hc, htail⟩
      have hnl2 : newlineChar ∉ cs := fun hm => hnl (List.mem_cons_of_mem c hm)
      exact List.cons_prefix_cons.mpr ⟨hc, ih cs hnl2 z htail⟩

/-- If the pattern occurs as a substring, `splitFirst` finds an
occurrence. -/
theorem splitFirst_isSome_of_infix (pat : Chars) :
    ∀ (x y : Chars), (splitFirst pat (x ++ pat ++ y)).isSome = true := by
  intro x
  induction x with
  | nil =>
    intro y
    rcases pat with _ | ⟨c, cs⟩
    · cases y <;> simp [splitFirst]
    · rw [List.nil_append, splitFirst_at_front (c :: cs) (c :: cs ++ y) (by simp)
        (List.isPrefixOf_iff_prefix.mpr (List.prefix_append _ y))]
      rfl
  | cons d ds ih =>
    intro y
    rw [List.cons_append, List.cons_append]
    rw [splitFirst]
    by_cases hpre : pat.isPrefixOf (d :: (ds ++ pat ++ y)) = true
    · rw [if_pos hpre]
      rfl
    · rw [if_neg hpre]
      have := ih y
      rw [List.append_assoc] at this ⊢
      match hsf : splitFirst pat (ds ++ (pat ++ y)) with
      | some ab => rfl
      | none => rw [hsf] at this; simp at this

/-- A line that does not contain the pattern as a substring, followed by
a newline, is transparent to the first-occurrence search for a
newline-free nonempty pattern. -/
theorem splitFirst_skip_line (pat : Chars) (hpat : pat ≠ [])
    (hnl : newlineChar ∉ pat) :
    ∀ (l rest : Chars), ¬ pat <:+: l →
      splitFirst pat (l ++ newlineChar :: rest) =
        (splitFirst pat rest).map (fun ab => (l ++ newlineChar :: ab.1, ab.2)) := by
  intro l
  induction l with
  | nil =>
    intro rest hl
    have hnpre : ¬ pat.isPrefixOf (newlineChar :: rest) = true := by
      intro hp
      rcases pat with _ | ⟨c, cs⟩
      · exact absurd rfl hpat
      · rcases List.cons_prefix_cons.mp (List.isPrefixOf_iff_prefix.mp hp) with ⟨hc, _⟩
        exact hnl (hc ▸ List.mem_cons_self c cs)
    rw [List.nil_append, splitFirst, if_neg hnpre]
    match hsf : splitFirst pat rest with
    | some ab => rfl
    | none => rfl
  | cons d ds ih =>
    intro rest hl
    have hnpre : ¬ pat.isPrefixOf (d :: (ds ++ newlineChar :: rest)) = true := by
      intro hp
      have hpre : pat <+: d :: ds :=
        prefix_of_prefix_append_nl pat hnl (d :: ds) rest
          (by rw [List.cons_append]; exact List.isPrefixOf_iff_prefix.mp hp)
      exact hl hpre.isInfix
    have hds : ¬ pat <:+: ds := by
      intro hi
      rcases hi with ⟨u, v, huv⟩
      exact hl ⟨d :: u, v, by rw [← huv]; rfl⟩
    rw [List.cons_append, splitFirst, if_neg hnpre, ih rest hds]
    match hsf : splitFirst pat rest with
    | some ab => rfl
    | none => rfl

/-- The first occurrence of a single separator character after a block
that does not contain it. -/
theorem splitFirst_single_sep (c : Char) :
    ∀ (h y : Chars), c ∉ h → splitFirst [c] (h ++ c :: y) = some (h, y) := by
  intro h
  induction h with
  | nil =>
    intro y _
    rw [List.nil_append, splitFirst,
      if_pos (List.isPrefixOf_iff_prefix.mpr (List.cons_prefix_cons.mpr ⟨rfl, List.nil_prefix⟩))]
    rfl
  | cons d ds ih =>
    intro y hc
    have hdc : ¬ ([c].isPrefixOf (d :: (ds ++ c :: y)) = true) := by
      intro hp
      rcases List.cons_prefix_cons.mp (List.isPrefixOf_iff_prefix.mp hp) with ⟨hcd, _⟩
      exact hc (hcd ▸ List.mem_cons_self d ds)
    rw [List.cons_append, splitFirst, if_neg hdc,
      ih y (fun hm => hc (List.mem_cons_of_mem d hm))]

/-- If the pattern is not contained in a string then it is not an infix
of it. -/
theorem not_infix_of_containsSub_false (pat l : Chars)
    (h : containsSub pat l = false) : ¬ pat <:+: l := by
  intro hinf
  rcases hinf with ⟨x, y, hxy⟩
  have := splitFirst_isSome_of_infix pat x y
  rw [hxy] at this
  rw [containsSub] at h
  rw [this] at h
  cases h

/-- Unpacking of the `lineOk` conjunction. -/
theorem lineOk_spec (l : Chars) (h : lineOk l = true) :
    newlineChar ∉ l ∧ ¬ markerOurs <:+: l ∧ ¬ markerSep <:+: l ∧
      ¬ markerTheirs <:+: l := by
  rw [lineOk] at h
  simp only [Bool.and_eq_true, Bool.not_eq_true'] at h
  obtain ⟨⟨⟨hnl, h1⟩, h2⟩, h3⟩ := h
  refine ⟨?_, not_infix_of_containsSub_false _ _ h1,
    not_infix_of_containsSub_false _ _ h2, not_infix_of_containsSub_false _ _ h3⟩
  intro hm
  have hc : l.contains newlineChar = true := by
    simp only [List.contains_iff_exists_mem_beq]
    exact ⟨newlineChar, hm, by simp⟩
  rw [hnl] at hc
  cases hc

/-- A block of lines none of which contains the newline-free nonempty
pattern is transparent to the first-occurrence search. -/
theorem splitFirst_skip_lines (pat : Chars) (hpat : pat ≠ [])
    (hnl : newlineChar ∉ pat) :
    ∀ (ls : List Chars) (rest : Chars), (∀ l ∈ ls, ¬ pat <:+: l) →
      splitFirst pat (renderLines ls ++ rest) =
        (splitFirst pat rest).map (fun ab => (renderLines ls ++ ab.1, ab.2)) := by
  intro ls
  induction ls with
  | nil =>
    intro rest _
    simp only [renderLines, List.map_nil, List.flatten_nil, List.nil_append]
    match hsf : splitFirst pat rest with
    | some ab => rfl
    | none => rfl
  | cons l ls ih =>
    intro rest hls
    have hstep : ∀ x : Chars,
        renderLines (l :: ls) ++ x = l ++ newlineChar :: (renderLines ls ++ x) := by
      intro x
      simp [renderLines, renderLine, List.append_assoc]
    rw [hstep rest, splitFirst_skip_line pat hpat hnl l (renderLines ls ++ rest)
        (hls l (List.mem_cons_self l ls)),
      ih rest (fun l2 hm => hls l2 (List.mem_cons_of_mem l hm))]
    match hsf : splitFirst pat rest with
    | some ab => simp [renderLines, renderLine, List.append_assoc]
    | none => rfl

/-- First occurrence of a newline-free nonempty marker that follows a
block of lines not containing it. -/
theorem splitFirst_lines_marker (pat : Chars) (hpat : pat ≠ [])
    (hnl : newlineChar ∉ pat) (ls : List Chars) (z : Chars)
    (hls : ∀ l ∈ ls, ¬ pat <:+: l) :
    splitFirst pat (renderLines ls ++ (pat ++ z)) = some (renderLines ls, z) := by
  rw [splitFirst_skip_lines pat hpat hnl ls (pat ++ z) hls,
    splitFirst_append_self pat z hpat]
  simp

/-- The three markers are nonempty and newline-free. -/
theorem marker_facts :
    (markerOurs ≠ [] ∧ newlineChar ∉ markerOurs) ∧
      (markerSep ≠ [] ∧ newlineChar ∉ markerSep) ∧
      (markerTheirs ≠ [] ∧ newlineChar ∉ markerTheirs) := by
  decide

theorem renderLines_append (a b : List Chars) :
    renderLines (a ++ b) = renderLines a ++ renderLines b := by
  simp [renderLines]

/-- The chain of first occurrences after the opening marker of a
rendered conflict block finds exactly the rendered groups. -/
theorem findConflictTail_block (h1 h2 h3 : Chars) (o t : List Chars) (R : Chars)
    (hh1 : newlineChar ∉ h1) (hh2 : newlineChar ∉ h2) (hh3 : newlineChar ∉ h3)
    (ho : ∀ l ∈ o, ¬ markerSep <:+: l) (ht : ∀ l ∈ t, ¬ markerTheirs <:+: l) :
    findConflictTail (h1 ++ newlineChar ::
        (renderLines o ++ (markerSep ++ (h2 ++ newlineChar ::
          (renderLines t ++ (markerTheirs ++ (h3 ++ newlineChar :: R))))))) =
      some (renderLines o, renderLines t, R) := by
  have e1 := splitFirst_single_sep newlineChar h1
    (renderLines o ++ (markerSep ++ (h2 ++ newlineChar ::
      (renderLines t ++ (markerTheirs ++ (h3 ++ newlineChar :: R)))))) hh1
  have e2 := splitFirst_lines_marker markerSep marker_facts.2.1.1 marker_facts.2.1.2
    o (h2 ++ newlineChar :: (renderLines t ++ (markerTheirs ++ (h3 ++ newlineChar :: R)))) ho
  have e3 := splitFirst_single_sep newlineChar h2
    (renderLines t ++ (markerTheirs ++ (h3 ++ newlineChar :: R))) hh2
  have e4 := splitFirst_lines_marker markerTheirs marker_facts.2.2.1 marker_facts.2.2.2
    t (h3 ++ newlineChar :: R) ht
  have e5 := splitFirst_single_sep newlineChar h3 R hh3
  simp only [findConflictTail, e1, e2, e3, e4, e5]

/-- A rendered conflict block at the front of the text is matched by the
conflict pattern with an empty prefix, capture groups equal to the
rendered ours and theirs sides, and the rest of the text untouched. -/
theorem findConflict_block (h1 h2 h3 : Chars) (o t : List Chars) (R : Chars)
    (hh1 : newlineChar ∉ h1) (hh2 : newlineChar ∉ h2) (hh3 : newlineChar ∉ h3)
    (ho : ∀ l ∈ o, ¬ markerSep <:+: l) (ht : ∀ l ∈ t, ¬ markerTheirs <:+: l) :
    findConflict (renderItem (.block h1 o h2 t h3) ++ R) =
      some ([], renderLines o, renderLines t, R) := by
  have hshape : renderItem (.block h1 o h2 t h3) ++ R =
      markerOurs ++ (h1 ++ newlineChar ::
        (renderLines o ++ (markerSep ++ (h2 ++ newlineChar ::
          (renderLines t ++ (markerTheirs ++ (h3 ++ newlineChar :: R))))))) := by
    simp [renderItem, List.append_assoc]
  rw [hshape]
  simp only [findConflict,
    splitFirst_append_self markerOurs _ marker_facts.1.1,
    findConflictTail_block h1 h2 h3 o t R hh1 hh2 hh3 ho ht]

/-- An ordinary line at the front of the text is transparent to the
conflict-pattern search: it is prepended to the prefix of the match of
the remaining text. -/
theorem findConflict_skip_line (l : Chars) (hl : ¬ markerOurs <:+: l) (R : Chars) :
    findConflict (renderLine l ++ R) =
      (findConflict R).map (fun x => (renderLine l ++ x.1, x.2)) := by
  have hstep : renderLine l ++ R = l ++ newlineChar :: R := by
    simp [renderLine]
  rw [hstep]
  simp only [findConflict,
    splitFirst_skip_line markerOurs marker_facts.1.1 marker_facts.1.2 l R hl]
  match h : splitFirst markerOurs R with
  | none => rfl
  | some pr =>
    dsimp only [Option.map]
    match h2 : findConflictTail pr.2 with
    | none => rfl
    | some g => simp [renderLine, List.append_assoc]

theorem headerOk_spec (h : Chars) (hh : headerOk h = true) : newlineChar ∉ h := by
  rw [headerOk] at hh
  simp only [Bool.not_eq_true'] at hh
  intro hm
  have hc : h.contains newlineChar = true := by
    simp only [List.contains_iff_exists_mem_beq]
    exact ⟨newlineChar, hm, by simp⟩
  rw [hh] at hc
  cases hc

/-- One substitution step over an ordinary leading line: the line is
kept and the rest of the text is substituted. -/
theorem subConflicts_prepend_line (l : Chars) (hl : ¬ markerOurs <:+: l)
    (R : Chars) (st : List Bool) :
    subConflicts (renderLine l ++ R) st =
      (subConflicts R st).map (fun out => renderLine l ++ out) := by
  conv_lhs => rw [subConflicts.eq_def]
  conv_rhs => rw [subConflicts.eq_def]
  dsimp only
  rw [findConflict_skip_line l hl R]
  match h : findConflict R with
  | none => rfl
  | some (pre, g1, g2, rest) =>
    match st with
    | [] => rfl
    | b :: bs =>
      dsimp only [Option.map]
      match h2 : subConflicts rest bs with
      | none => rfl
      | some tail => simp [List.append_assoc]

/-- One substitution step over a leading conflict block: the chosen side
replaces the block (strategy exhaustion yields the StopIteration
outcome). -/
theorem subConflicts_block_step (h1 h2 h3 : Chars) (o t : List Chars) (R : Chars)
    (hh1 : newlineChar ∉ h1) (hh2 : newlineChar ∉ h2) (hh3 : newlineChar ∉ h3)
    (ho : ∀ l ∈ o, ¬ markerSep <:+: l) (ht : ∀ l ∈ t, ¬ markerTheirs <:+: l) :
    (subConflicts (renderItem (.block h1 o h2 t h3) ++ R) [] = none) ∧
      ∀ (b : Bool) (bs : List Bool),
        subConflicts (renderItem (.block h1 o h2 t h3) ++ R) (b :: bs) =
          (subConflicts R bs).map
            (fun tail => (if b then renderLines o else renderLines t) ++ tail) := by
  constructor
  · rw [subConflicts.eq_def]
    dsimp only
    rw [findConflict_block h1 h2 h3 o t R hh1 hh2 hh3 ho ht]
  · intro b bs
    conv_lhs => rw [subConflicts.eq_def]
    dsimp only
    rw [findConflict_block h1 h2 h3 o t R hh1 hh2 hh3 ho ht]
    dsimp only
    simp

/-- The substitution loop on a rendered structured text equals the
structured resolution: every ordinary line is kept and the i-th block
is replaced by the side chosen by the i-th strategy entry (both sides
fail exactly when the strategy list is shorter than the number of
blocks). -/
theorem subConflicts_renderItems (items : List ConflictItem) :
    ∀ st : List Bool, itemsOk items = true →
      subConflicts (renderItems items) st = (resolvedLines items st).map renderLines := by
  induction items with
  | nil =>
    intro st _
    show subConflicts [] st = (resolvedLines [] st).map renderLines
    rw [subConflicts.eq_def]
    dsimp only
    rw [show findConflict [] = none by
      simp [findConflict, splitFirst_nil markerOurs marker_facts.1.1]]
    rfl
  | cons i rest ih =>
    intro st hok
    rw [itemsOk, List.all_cons, Bool.and_eq_true] at hok
    obtain ⟨hoki, hokr⟩ := hok
    cases i with
    | plainLine l =>
      have hrend : renderItems (ConflictItem.plainLine l :: rest) =
          renderLine l ++ renderItems rest := by
        simp [renderItems, renderItem]
      rw [hrend,
        subConflicts_prepend_line l ((lineOk_spec l hoki).2.1) (renderItems rest) st,
        ih st hokr]
      simp only [resolvedLines]
      cases hres : resolvedLines rest st with
      | none => rfl
      | some ls =>
        dsimp only [Option.map]
        simp [renderLines, renderLine]
    | block h1 o h2 t h3 =>
      rw [itemOk] at hoki
      simp only [Bool.and_eq_true, List.all_eq_true] at hoki
      obtain ⟨⟨⟨⟨hh1, hh2⟩, hh3⟩, hallo⟩, hallt⟩ := hoki
      have hrend : renderItems (ConflictItem.block h1 o h2 t h3 :: rest) =
          renderItem (ConflictItem.block h1 o h2 t h3) ++ renderItems rest := by
        simp [renderItems]
      have hstep := subConflicts_block_step h1 h2 h3 o t (renderItems rest)
        (headerOk_spec h1 hh1) (headerOk_spec h2 hh2) (headerOk_spec h3 hh3)
        (fun l hm => (lineOk_spec l (hallo l hm)).2.2.1)
        (fun l hm => (lineOk_spec l (hallt l hm)).2.2.2)
      cases st with
      | nil =>
        rw [hrend, hstep.1]
        rfl
      | cons b bs =>
        rw [hrend, hstep.2 b bs, ih bs hokr]
        simp only [resolvedLines]
        cases hres : resolvedLines rest bs with
        | none => rfl
        | some ls =>
          dsimp only [Option.map]
          cases b <;> simp [renderLines_append]

/-- A strategy list at least as long as the number of blocks resolves
the whole structured text. -/
theorem resolvedLines_isSome (items : List ConflictItem) :
    ∀ st : List Bool, countBlocks items ≤ st.length →
      ∃ ls, resolvedLines items st = some ls := by
  induction items with
  | nil =>
    intro st _
    exact ⟨[], rfl⟩
  | cons i rest ih =>
    intro st hlen
    cases i with
    | plainLine l =>
      obtain ⟨ls, hls⟩ := ih st (by simpa [countBlocks] using hlen)
      exact ⟨l :: ls, by simp [resolvedLines, hls]⟩
    | block h1 o h2 t h3 =>
      cases st with
      | nil => simp [countBlocks] at hlen
      | cons b bs =>
        obtain ⟨ls, hls⟩ := ih bs (by
          rw [countBlocks] at hlen
          simpa using Nat.le_of_succ_le_succ hlen)
        exact ⟨(if b then o else t) ++ ls, by simp [resolvedLines, hls]⟩

/-- Every line of the resolved text is an ordinary content line. -/
theorem resolvedLines_ok (items : List ConflictItem) :
    ∀ (st : List Bool) (ls : List Chars), itemsOk items = true →
      resolvedLines items st = some ls → ∀ l ∈ ls, lineOk l = true := by
  induction items with
  | nil =>
    intro st ls _ hres l hm
    cases hres
    cases hm
  | cons i rest ih =>
    intro st ls hok hres l hm
    rw [itemsOk, List.all_cons, Bool.and_eq_true] at hok
    obtain ⟨hoki, hokr⟩ := hok
    cases i with
    | plainLine l0 =>
      rw [resolvedLines] at hres
      rcases Option.map_eq_some'.mp hres with ⟨ls0, hls0, hcons⟩
      subst hcons
      rcases List.mem_cons.mp hm with hl | hl
      · exact hl ▸ hoki
      · exact ih st ls0 hokr hls0 l hl
    | block h1 o h2 t h3 =>
      rw [itemOk] at hoki
      simp only [Bool.and_eq_true, List.all_eq_true] at hoki
      obtain ⟨⟨⟨⟨_, _⟩, _⟩, hallo⟩, hallt⟩ := hoki
      cases st with
      | nil => cases hres
      | cons b bs =>
        rw [resolvedLines] at hres
        rcases Option.map_eq_some'.mp hres with ⟨ls0, hls0, happ⟩
        subst happ
        rcases List.mem_append.mp hm with hl | hl
        · cases b with
          | true => exact hallo l (by simpa using hl)
          | false => exact hallt l (by simpa using hl)
        · exact ih bs ls0 hokr hls0 l hl

/-- A text made only of ordinary lines is not matched by the conflict
pattern. -/
theorem findConflict_renderLines_none (ls : List Chars)
    (h : ∀ l ∈ ls, ¬ markerOurs <:+: l) : findConflict (renderLines ls) = none := by
  have hsf := splitFirst_skip_lines markerOurs marker_facts.1.1 marker_facts.1.2 ls [] h
  rw [List.append_nil, splitFirst_nil markerOurs marker_facts.1.1] at hsf
  simp only [Option.map_none'] at hsf
  simp [findConflict, hsf]

/-- A text made only of ordinary lines does not contain a newline-free
marker that is an infix of none of its lines. -/
theorem containsSub_renderLines_false (pat : Chars) (hpat : pat ≠ [])
    (hnl : newlineChar ∉ pat) (ls : List Chars) (h : ∀ l ∈ ls, ¬ pat <:+: l) :
    containsSub pat (renderLines ls) = false := by
  have hsf := splitFirst_skip_lines pat hpat hnl ls [] h
  rw [List.append_nil, splitFirst_nil pat hpat] at hsf
  simp only [Option.map_none'] at hsf
  rw [containsSub, hsf]
  rfl

/-- A text the conflict pattern does not match has zero counted
conflicts. -/
theorem count_conflicts_zero (s : Chars) (h : findConflict s = none) :
    count_conflicts s = 0 := by
  rw [count_conflicts]
  cases hl : s.length with
  | zero => rfl
  | succ n => simp [countAux, h]

/-- Claim C6: for every input text in the conflict-marker format (an
interleaving of ordinary lines with N conflict blocks, N possibly 0)
and every strategy list with at least N entries, `git.handle_conflict`
succeeds and produces the text in which every ordinary line is kept and
the i-th block is replaced by its ours side when the i-th strategy
entry is true and by its theirs side otherwise (`resolvedLines`), and
the produced text contains zero conflict markers: none of the three
marker strings occurs in it, the conflict pattern no longer matches,
and `count_conflicts` of the result is 0. -/
theorem handle_conflict_resolves (items : List ConflictItem) (strategy : List Bool)
    (hok : itemsOk items = true) (hlen : countBlocks items ≤ strategy.length) :
    ∃ ls, handle_conflict (renderItems items) strategy = some (renderLines ls) ∧
      resolvedLines items strategy = some ls ∧
      containsSub markerOurs (renderLines ls) = false ∧
      containsSub markerSep (renderLines ls) = false ∧
      containsSub markerTheirs (renderLines ls) = false ∧
      findConflict (renderLines ls) = none ∧
      count_conflicts (renderLines ls) = 0 := by
  obtain ⟨ls, hls⟩ := resolvedLines_isSome items strategy hlen
  have hok2 : ∀ l ∈ ls, lineOk l = true :=
    resolvedLines_ok items strategy ls hok hls
  have hmarker : ∀ l ∈ ls, ¬ markerOurs <:+: l := fun l hm =>
    (lineOk_spec l (hok2 l hm)).2.1
  refine ⟨ls, ?_, hls,
    containsSub_renderLines_false markerOurs marker_facts.1.1 marker_facts.1.2 ls hmarker,
    containsSub_renderLines_false markerSep marker_facts.2.1.1 marker_facts.2.1.2 ls
      (fun l hm => (lineOk_spec l (hok2 l hm)).2.2.1),
    containsSub_renderLines_false markerTheirs marker_facts.2.2.1 marker_facts.2.2.2 ls
      (fun l hm => (lineOk_spec l (hok2 l hm)).2.2.2),
    findConflict_renderLines_none ls hmarker,
    count_conflicts_zero _ (findConflict_renderLines_none ls hmarker)⟩
  rw [handle_conflict, subConflicts_renderItems items strategy hok, hls]
  rfl

/-- Closed witness for `handle_conflict_resolves`. -/
theorem handle_conflict_resolves_witness :
    ∃ ls,
      handle_conflict
          (renderItems
            [ConflictItem.plainLine ("hi").toList,
              ConflictItem.block (" HEAD").toList [("a").toList] []
                [("b").toList] (" br").toList])
          [true] = some (renderLines ls) ∧
        resolvedLines
            [ConflictItem.plainLine ("hi").toList,
              ConflictItem.block (" HEAD").toList [("a").toList] []
                [("b").toList] (" br").toList]
            [true] = some ls ∧
        containsSub markerOurs (renderLines ls) = false ∧
        containsSub markerSep (renderLines ls) = false ∧
        containsSub markerTheirs (renderLines ls) = false ∧
        findConflict (renderLines ls) = none ∧
        count_conflicts (renderLines ls) = 0 :=
  handle_conflict_resolves
    [ConflictItem.plainLine ("hi").toList,
      ConflictItem.block (" HEAD").toList [("a").toList] [] [("b").toList] (" br").toList]
    [true] (by decide) (by decide)

/-- Soundness of the first-occurrence splitter: a found occurrence is a
decomposition of the string. -/
theorem splitFirst_eq_append (pat : Chars) :
    ∀ s a b, splitFirst pat s = some (a, b) → s = a ++ pat ++ b := by
  intro s
  induction s with
  | nil =>
    intro a b h
    rw [splitFirst] at h
    by_cases hp : pat = []
    · rw [if_pos hp] at h
      injection h with h1
      injection h1 with h2 h3
      subst hp
      subst h2
      subst h3
      rfl
    · rw [if_neg hp] at h
      cases h
  | cons c cs ih =>
    intro a b h
    rw [splitFirst] at h
    by_cases hp : pat.isPrefixOf (c :: cs) = true
    · rw [if_pos hp] at h
      injection h with h1
      injection h1 with h2 h3
      subst h2
      subst h3
      have hpre := List.isPrefixOf_iff_prefix.mp hp
      rw [List.nil_append]
      exact (List.prefix_iff_eq_append.mp hpre).symm
    · rw [if_neg hp] at h
      cases hsf : splitFirst pat cs with
      | none =>
        rw [hsf] at h
        cases h
      | some ab =>
        obtain ⟨a1, b1⟩ := ab
        rw [hsf] at h
        injection h with h1
        injection h1 with h2 h3
        subst h2
        subst h3
        rw [ih a1 b1 hsf]
        simp

/-- The tail of a conflict-pattern match is strictly shorter than the
text after the opening marker. -/
theorem findConflictTail_rest_lt (r1 g1 g2 rest : Chars)
    (h : findConflictTail r1 = some (g1, g2, rest)) : rest.length < r1.length := by
  rw [findConflictTail] at h
  cases e1 : splitFirst [newlineChar] r1 with
  | none => simp only [e1] at h; cases h
  | some p1 =>
    obtain ⟨x1, r2⟩ := p1
    simp only [e1] at h
    cases e2 : splitFirst markerSep r2 with
    | none => simp only [e2] at h; cases h
    | some p2 =>
      obtain ⟨g1x, r3⟩ := p2
      simp only [e2] at h
      cases e3 : splitFirst [newlineChar] r3 with
      | none => simp only [e3] at h; cases h
      | some p3 =>
        obtain ⟨x2, r4⟩ := p3
        simp only [e3] at h
        cases e4 : splitFirst markerTheirs r4 with
        | none => simp only [e4] at h; cases h
        | some p4 =>
          obtain ⟨g2x, r5⟩ := p4
          simp only [e4] at h
          cases e5 : splitFirst [newlineChar] r5 with
          | none => simp only [e5] at h; cases h
          | some p5 =>
            obtain ⟨x3, restx⟩ := p5
            simp only [e5] at h
            injection h with h1
            injection h1 with hg1 h2
            injection h2 with hg2 hrest
            subst hrest
            have l1 := congrArg List.length (splitFirst_eq_append _ _ _ _ e1)
            have l2 := congrArg List.length (splitFirst_eq_append _ _ _ _ e2)
            have l3 := congrArg List.length (splitFirst_eq_append _ _ _ _ e3)
            have l4 := congrArg List.length (splitFirst_eq_append _ _ _ _ e4)
            have l5 := congrArg List.length (splitFirst_eq_append _ _ _ _ e5)
            simp only [List.length_append, List.length_cons, List.length_nil,
              markerSep, markerTheirs, List.length_replicate] at l1 l2 l3 l4 l5
            omega

/-- Every match of the conflict pattern consumes at least one character:
the rest after a match is strictly shorter than the matched text, so
the fuel `s.length` of `count_conflicts` always suffices. -/
theorem findConflict_rest_lt (s pre g1 g2 rest : Chars)
    (h : findConflict s = some (pre, g1, g2, rest)) : rest.length < s.length := by
  rw [findConflict] at h
  cases h1 : splitFirst markerOurs s with
  | none => simp only [h1] at h; cases h
  | some pr1 =>
    obtain ⟨pre1, r1⟩ := pr1
    simp only [h1] at h
    cases h2 : findConflictTail r1 with
    | none => simp only [h2] at h; cases h
    | some g =>
      obtain ⟨g1x, g2x, restx⟩ := g
      simp only [h2] at h
      injection h with h3
      injection h3 with hpre h4
      injection h4 with hg1 h5
      injection h5 with hg2 hrest
      subst hrest
      have ltail := findConflictTail_rest_lt r1 g1x g2x restx h2
      have l1 := congrArg List.length (splitFirst_eq_append _ _ _ _ h1)
      simp only [List.length_append, markerOurs, List.length_replicate] at l1
      omega

theorem countAux_nil (fuel : Nat) : countAux fuel [] = 0 := by
  cases fuel with
  | zero => rfl
  | succ f =>
    simp [countAux, findConflict, splitFirst_nil markerOurs marker_facts.1.1]

/-- The fuel-bounded counter is independent of the fuel once the fuel
reaches the length of the string: `count_conflicts` computes the python
findall match count. -/
theorem countAux_stable (n : Nat) :
    ∀ (s : Chars) (fuel fuel' : Nat), s.length ≤ fuel → s.length ≤ fuel' →
      s.length ≤ n → countAux fuel s = countAux fuel' s := by
  induction n with
  | zero =>
    intro s fuel fuel' _ _ h3
    have hs : s = [] := List.eq_nil_of_length_eq_zero (by omega)
    subst hs
    rw [countAux_nil, countAux_nil]
  | succ n ih =>
    intro s fuel fuel' h1 h2 _
    cases fuel with
    | zero =>
      have hs : s = [] := List.eq_nil_of_length_eq_zero (by omega)
      subst hs
      rw [countAux_nil, countAux_nil]
    | succ f =>
      cases fuel' with
      | zero =>
        have hs : s = [] := List.eq_nil_of_length_eq_zero (by omega)
        subst hs
        rw [countAux_nil, countAux_nil]
      | succ f' =>
        rw [countAux, countAux]
        cases hfc : findConflict s with
        | none => rfl
        | some q =>
          obtain ⟨pre, g1, g2, rest⟩ := q
          have hlt := findConflict_rest_lt s pre g1 g2 rest hfc
          dsimp only
          rw [ih rest f f' (by omega) (by omega) (by omega)]
